import Mathlib

/-!
Verification of the geometric core of the 3D-BBox repository
(`bbox3D_estimate_v2.py`): the corner generator `dimensions_to_corners`
and the pose solver `solve_3d_bbox_single`.

The Python code computes with torch float tensors; we embed the
computation over an abstract linear ordered field `α` (instantiated at
`ℝ` for the full pipeline, which involves `atan2`, `cos`, `sin` and `π`,
and at `ℚ` for executable witnesses of the trig-free parts).  Exact
field arithmetic stands for the ideal real semantics of the float code.
-/

namespace BBox3D

open Matrix

variable {α : Type} [LinearOrderedField α]

/-- Embeds `dimensions_to_corners`, line `corner_x`: the x-coordinates of
the 8 corners, `[ l/2, -l/2, -l/2, l/2, l/2, -l/2, -l/2, l/2]`. -/
def corner_x (l : α) : Fin 8 → α :=
  ![l / 2, -l / 2, -l / 2, l / 2, l / 2, -l / 2, -l / 2, l / 2]

/-- Embeds `dimensions_to_corners`, line `corner_y`:
`[zeros, zeros, zeros, zeros, -h, -h, -h, -h]`. -/
def corner_y (h : α) : Fin 8 → α :=
  ![0, 0, 0, 0, -h, -h, -h, -h]

/-- Embeds `dimensions_to_corners`, line `corner_z`:
`[ w/2, w/2, -w/2, -w/2, w/2, w/2, -w/2, -w/2]`. -/
def corner_z (w : α) : Fin 8 → α :=
  ![w / 2, w / 2, -w / 2, -w / 2, w / 2, w / 2, -w / 2, -w / 2]

/-- The `3×8×N` tensor `corners = torch.stack([corner_x, corner_y, corner_z])`
built by `dimensions_to_corners` from a batch `dims : Fin N → Fin 3 → α` of
dimension triples (`h = dims n 0`, `w = dims n 1`, `l = dims n 2`, as in
`h, w, l = dimensions[:, 0], dimensions[:, 1], dimensions[:, 2]`). -/
def corners_stacked {N : ℕ} (dims : Fin N → Fin 3 → α) :
    Fin 3 → Fin 8 → Fin N → α :=
  fun c i n => ![corner_x (dims n 2) i, corner_y (dims n 0) i, corner_z (dims n 1) i] c

/-- Embeds `dimensions_to_corners`: the final `corners.permute(2, 1, 0)`,
returning the `N×8×3` batch of canonical corners. -/
def dimensions_to_corners {N : ℕ} (dims : Fin N → Fin 3 → α) :
    Fin N → Fin 8 → Fin 3 → α :=
  fun n i c => corners_stacked dims c i n

/-- The homogeneous matrix `X`: `torch.eye(4)` with `X[:3, 3]` set to a
corner `c` (the loop bodies of `solve_3d_bbox_single` reassign only this
column, so each iteration sees exactly this matrix). -/
def Xmat (c : Fin 3 → α) : Matrix (Fin 4) (Fin 4) α :=
  Matrix.of ![![1, 0, 0, c 0], ![0, 1, 0, c 1], ![0, 0, 1, c 2], ![0, 0, 0, 1]]

/-- One linear constraint `A · t = b` on the unknown translation. -/
structure Constraint (α : Type) where
  A : Fin 3 → α
  b : α

/-- Embeds the `x`-edge constraint derivation of `solve_3d_bbox_single`
(used for both `x1` and `x2` with the respective edge value):
`A = K_X[0, :3] - edge * K_X[2, :3]`, `b = edge * K_X[2, 3] - K_X[0, 3]`
where `K_X = K @ X(corner)`. -/
def constraintX (K : Matrix (Fin 3) (Fin 4) α) (c : Fin 3 → α) (edge : α) :
    Constraint α :=
  let K_X := K * Xmat c
  ⟨fun j => K_X 0 j.castSucc - edge * K_X 2 j.castSucc,
   edge * K_X 2 3 - K_X 0 3⟩

/-- Embeds the `y`-edge constraint derivation of `solve_3d_bbox_single`
(used for both `y1` and `y2`):
`A = K_X[1, :3] - edge * K_X[2, :3]`, `b = edge * K_X[2, 3] - K_X[1, 3]`. -/
def constraintY (K : Matrix (Fin 3) (Fin 4) α) (c : Fin 3 → α) (edge : α) :
    Constraint α :=
  let K_X := K * Xmat c
  ⟨fun j => K_X 1 j.castSucc - edge * K_X 2 j.castSucc,
   edge * K_X 2 3 - K_X 1 3⟩

/-- One hypothesis row of the correspondence table `crp`: the candidate
corner indices for each 2D edge. -/
structure Hyp where
  x1 : List (Fin 8)
  x2 : List (Fin 8)
  y1 : List (Fin 8)
  y2 : List (Fin 8)

/-- Embeds the fixed lookup table `crp` of `solve_3d_bbox_single`. -/
def crp : List Hyp :=
  [⟨[6, 7], [4], [5, 7], [3]⟩,
   ⟨[5, 6], [7], [4, 6], [2]⟩,
   ⟨[4, 5], [6], [7, 5], [1]⟩,
   ⟨[7, 4], [5], [6, 4], [0]⟩]

/-- A candidate 4-equation system: the stacked `A` (4×3) and `b` (4). -/
def System (α : Type) : Type := Matrix (Fin 4) (Fin 3) α × (Fin 4 → α)

/-- Stacks four constraints into the rows `A[0..3]`, `b[0..3]` exactly as
the innermost loop body of `solve_3d_bbox_single` does. -/
def mkSystem (c1 c2 c3 c4 : Constraint α) : System α :=
  (Matrix.of ![c1.A, c2.A, c3.A, c4.A], ![c1.b, c2.b, c3.b, c4.b])

/-- The list of candidate systems tried by the nested loops of
`solve_3d_bbox_single`, in the exact enumeration order:
hypothesis `i` in `range(4)`, then `x_1 in cr['x1']`, `x_2 in cr['x2']`,
`y_1 in cr['y1']`, `y_2 in cr['y2']`.  `rc` is the rotated-corner table;
the constraint dictionaries are indexed by corner. -/
def systems (K : Matrix (Fin 3) (Fin 4) α) (rc : Fin 8 → Fin 3 → α)
    (x1 y1 x2 y2 : α) : List (System α) :=
  crp.flatMap fun cr =>
    cr.x1.flatMap fun a =>
      cr.x2.flatMap fun b =>
        cr.y1.flatMap fun c =>
          cr.y2.map fun d =>
            mkSystem (constraintX K (rc a) x1) (constraintX K (rc b) x2)
              (constraintY K (rc c) y1) (constraintY K (rc d) y2)

/-- Embeds `torch.matmul(torch.pinverse(A), b)`.  `torch.pinverse` is the
Moore–Penrose pseudoinverse; for a 4×3 `A` of full column rank it equals
`(Aᵀ A)⁻¹ Aᵀ`, which we express with the adjugate-based inverse (total:
when `det (Aᵀ A) = 0` the inverse factor is the zero matrix, mirroring
that a degenerate system still yields a finite, returned vector). -/
def pinvSolve (A : Matrix (Fin 4) (Fin 3) α) (b : Fin 4 → α) : Fin 3 → α :=
  let M := Aᵀ * A
  ((M.det)⁻¹ • M.adjugate).mulVec (Aᵀ.mulVec b)

/-- The squared 2-norm of the residual `A t − b`; the code's
`torch.norm(torch.matmul(A, trans_t) - b)` is its square root. -/
def resSq (A : Matrix (Fin 4) (Fin 3) α) (b : Fin 4 → α) (t : Fin 3 → α) : α :=
  ∑ i, (A.mulVec t i - b i) ^ 2

/-- The squared residual of a candidate system at its own pseudoinverse
solution. -/
def errOf (s : System α) : α := resSq s.1 s.2 (pinvSolve s.1 s.2)

/-- The pseudoinverse solution of a candidate system. -/
def solOf (s : System α) : Fin 3 → α := pinvSolve s.1 s.2

/-- One iteration of the selection loop, tracking `(trans, error)` with the
squared residual as the error measure.  The source initializes
`error = float('inf')`; every computed `error_t` is finite, so the first
iteration always takes the branch — `none` plays the role of the infinite
initial error. -/
def step (best : Option ((Fin 3 → α) × α)) (s : System α) :
    Option ((Fin 3 → α) × α) :=
  match best with
  | none => some (solOf s, errOf s)
  | some p => if errOf s < p.2 then some (solOf s, errOf s) else some p

/-- The selection loop over a list of candidate systems (squared-residual
version). -/
def solveLoopSq (l : List (System α)) : Option ((Fin 3 → α) × α) :=
  l.foldl step none

/-- The 2-norm of the residual `A t − b`, i.e.
`torch.norm(torch.matmul(A, trans_t) - b)`. -/
noncomputable def residual (A : Matrix (Fin 4) (Fin 3) ℝ) (b : Fin 4 → ℝ)
    (t : Fin 3 → ℝ) : ℝ :=
  Real.sqrt (resSq A b t)

/-- The residual norm of a candidate system at its own pseudoinverse
solution: the `error_t` the source computes for that system. -/
noncomputable def errNorm (s : System ℝ) : ℝ := Real.sqrt (errOf s)

/-- One iteration of the selection loop exactly as in the source: the
error measure is the residual 2-norm and the update condition is
`error_t < error`. -/
noncomputable def stepN (best : Option ((Fin 3 → ℝ) × ℝ)) (s : System ℝ) :
    Option ((Fin 3 → ℝ) × ℝ) :=
  match best with
  | none => some (solOf s, errNorm s)
  | some p => if errNorm s < p.2 then some (solOf s, errNorm s) else some p

/-- The selection loop of `solve_3d_bbox_single` over the candidate
systems, carrying `(trans, error)`. -/
noncomputable def solveLoop (l : List (System ℝ)) : Option ((Fin 3 → ℝ) × ℝ) :=
  l.foldl stepN none

/-- Embeds `torch.atan2 y x`: the angle of the point `(x, y)`. -/
noncomputable def atan2 (y x : ℝ) : ℝ := Complex.arg ⟨x, y⟩

/-- Embeds `theta_ray = torch.atan2(P2[0, 0], (x1 + x2) * 0.5 - P2[0, 2])`. -/
noncomputable def theta_ray (P2 : Matrix (Fin 3) (Fin 4) ℝ) (x1 x2 : ℝ) : ℝ :=
  atan2 (P2 0 0) ((x1 + x2) * 0.5 - P2 0 2)

/-- Embeds `ry = np.pi - theta_ray - theta_l`. -/
noncomputable def ry (P2 : Matrix (Fin 3) (Fin 4) ℝ) (x1 x2 theta_l : ℝ) : ℝ :=
  Real.pi - theta_ray P2 x1 x2 - theta_l

/-- Embeds the matrix `Ry_T` built from `ry` in the source. -/
noncomputable def Ry_T (θ : ℝ) : Matrix (Fin 3) (Fin 3) ℝ :=
  Matrix.of ![![Real.cos θ, 0, -Real.sin θ],
              ![0, 1, 0],
              ![Real.sin θ, 0, Real.cos θ]]

/-- Embeds `corners = torch.matmul(corners, Ry_T)`: each corner row is
right-multiplied by `Ry_T`. -/
noncomputable def rotate_corners (corners : Fin 8 → Fin 3 → ℝ) (θ : ℝ) :
    Fin 8 → Fin 3 → ℝ :=
  fun i => Matrix.vecMul (corners i) (Ry_T θ)

/-- Embeds `R0_rect = torch.eye(4); R0_rect[:3, :3] = calib['R0_rect']`. -/
def R0_hom (R0 : Matrix (Fin 3) (Fin 3) α) : Matrix (Fin 4) (Fin 4) α :=
  Matrix.of ![![R0 0 0, R0 0 1, R0 0 2, 0],
              ![R0 1 0, R0 1 1, R0 1 2, 0],
              ![R0 2 0, R0 2 1, R0 2 2, 0],
              ![0, 0, 0, 1]]

/-- Embeds `K = torch.matmul(P2, R0_rect)`, the combined 3×4 projection. -/
def Kmat (P2 : Matrix (Fin 3) (Fin 4) α) (R0 : Matrix (Fin 3) (Fin 3) α) :
    Matrix (Fin 3) (Fin 4) α :=
  P2 * R0_hom R0

/-- The candidate-system list built by `solve_3d_bbox_single` for a given
input (2D box, canonical corners, ray-relative angle, calibration). -/
noncomputable def systems_of (bbox2D : Fin 4 → ℝ) (corners : Fin 8 → Fin 3 → ℝ)
    (theta_l : ℝ) (P2 : Matrix (Fin 3) (Fin 4) ℝ)
    (R0_rect : Matrix (Fin 3) (Fin 3) ℝ) : List (System ℝ) :=
  systems (Kmat P2 R0_rect)
    (rotate_corners corners (ry P2 (bbox2D 0) (bbox2D 2) theta_l))
    (bbox2D 0) (bbox2D 1) (bbox2D 2) (bbox2D 3)

/-- Embeds `solve_3d_bbox_single(bbox2D, corners, theta_l, calib)` with
`calib = {P2, R0_rect}`: unpack `x1, y1, x2, y2 = bbox2D`, build `K`,
compute `ry`, rotate the corners, enumerate the candidate systems and
return the `trans` of the loop.  The `none` branch is unreachable (the
loop always assigns on its first iteration, since `error_t < inf`); the
default `0` only makes the embedding total. -/
noncomputable def solve_3d_bbox_single (bbox2D : Fin 4 → ℝ)
    (corners : Fin 8 → Fin 3 → ℝ) (theta_l : ℝ)
    (P2 : Matrix (Fin 3) (Fin 4) ℝ) (R0_rect : Matrix (Fin 3) (Fin 3) ℝ) :
    Fin 3 → ℝ :=
  (solveLoop (systems_of bbox2D corners theta_l P2 R0_rect)).elim
    (fun _ => 0) Prod.fst

/-- The final value of the loop's `error` variable: the residual norm of
the returned solution. -/
noncomputable def solve_error (bbox2D : Fin 4 → ℝ)
    (corners : Fin 8 → Fin 3 → ℝ) (theta_l : ℝ)
    (P2 : Matrix (Fin 3) (Fin 4) ℝ) (R0_rect : Matrix (Fin 3) (Fin 3) ℝ) : ℝ :=
  (solveLoop (systems_of bbox2D corners theta_l P2 R0_rect)).elim 0 Prod.snd

/-! ## Lemmas about the selection loop -/

lemma resSq_nonneg (A : Matrix (Fin 4) (Fin 3) α) (b : Fin 4 → α)
    (t : Fin 3 → α) : 0 ≤ resSq A b t :=
  Finset.sum_nonneg fun _ _ => sq_nonneg _

lemma errOf_nonneg (s : System α) : 0 ≤ errOf s :=
  resSq_nonneg _ _ _

/-- Invariant of the selection loop started from a finite best `p`: the
final state is the running minimum, and when the initial best is replaced
the final state comes from a list element that beats `p` and every
earlier element strictly. -/
lemma foldl_step_some (l : List (System α)) (p : (Fin 3 → α) × α) :
    ∃ q, l.foldl step (some p) = some q ∧ q.2 ≤ p.2 ∧
      (∀ s ∈ l, q.2 ≤ errOf s) ∧
      (q = p ∨ ∃ k, ∃ hk : k < l.length,
        q = (solOf (l.get ⟨k, hk⟩), errOf (l.get ⟨k, hk⟩)) ∧ q.2 < p.2 ∧
        ∀ j, ∀ hj : j < k, q.2 < errOf (l.get ⟨j, hj.trans hk⟩)) := by
  induction l generalizing p with
  | nil =>
    exact ⟨p, rfl, le_refl _, by simp, Or.inl rfl⟩
  | cons s t ih =>
    by_cases h : errOf s < p.2
    · obtain ⟨q, hq, hle, hmin, hprov⟩ := ih (solOf s, errOf s)
      refine ⟨q, ?_, ?_, ?_, ?_⟩
      · simpa [step, h] using hq
      · exact hle.trans h.le
      · intro s' hs'
        rcases List.mem_cons.mp hs' with rfl | hs'
        · exact hle
        · exact hmin s' hs'
      · rcases hprov with rfl | ⟨k, hk, hq', hlt, hearly⟩
        · refine Or.inr ⟨0, Nat.succ_pos _, rfl, h, ?_⟩
          intro j hj
          exact absurd hj (Nat.not_lt_zero _)
        · refine Or.inr ⟨k + 1, Nat.succ_lt_succ hk, hq', hlt.trans h, ?_⟩
          intro j hj
          match j, hj with
          | 0, _ => exact hlt
          | j' + 1, hj => exact hearly j' (Nat.lt_of_succ_lt_succ hj)
    · obtain ⟨q, hq, hle, hmin, hprov⟩ := ih p
      refine ⟨q, ?_, hle, ?_, ?_⟩
      · simpa [step, h] using hq
      · intro s' hs'
        rcases List.mem_cons.mp hs' with rfl | hs'
        · exact hle.trans (not_lt.mp h)
        · exact hmin s' hs'
      · rcases hprov with rfl | ⟨k, hk, hq', hlt, hearly⟩
        · exact Or.inl rfl
        · refine Or.inr ⟨k + 1, Nat.succ_lt_succ hk, hq', hlt, ?_⟩
          intro j hj
          match j, hj with
          | 0, _ => exact hlt.trans_le (not_lt.mp h)
          | j' + 1, hj => exact hearly j' (Nat.lt_of_succ_lt_succ hj)

/-- The selection loop on a nonempty list returns the solution and error
of the earliest list element achieving the minimal squared residual. -/
lemma solveLoopSq_spec (l : List (System α)) (hne : l ≠ []) :
    ∃ k, ∃ hk : k < l.length,
      solveLoopSq l = some (solOf (l.get ⟨k, hk⟩), errOf (l.get ⟨k, hk⟩)) ∧
      (∀ j, ∀ hj : j < l.length,
        errOf (l.get ⟨k, hk⟩) ≤ errOf (l.get ⟨j, hj⟩)) ∧
      (∀ j, ∀ hj : j < k,
        errOf (l.get ⟨k, hk⟩) < errOf (l.get ⟨j, hj.trans hk⟩)) := by
  match l, hne with
  | s :: t, _ =>
    obtain ⟨q, hq, hle, hmin, hprov⟩ := foldl_step_some t (solOf s, errOf s)
    rcases hprov with rfl | ⟨k, hk, hq', hlt, hearly⟩
    · refine ⟨0, Nat.succ_pos _, ?_, ?_, ?_⟩
      · simpa [solveLoopSq, step] using hq
      · intro j hj
        match j, hj with
        | 0, _ => exact le_refl _
        | j' + 1, hj =>
          exact hmin _ (t.get_mem j' (Nat.lt_of_succ_lt_succ hj))
      · intro j hj
        exact absurd hj (Nat.not_lt_zero _)
    · refine ⟨k + 1, Nat.succ_lt_succ hk, ?_, ?_, ?_⟩
      · have : q = (solOf ((s :: t).get ⟨k + 1, Nat.succ_lt_succ hk⟩),
            errOf ((s :: t).get ⟨k + 1, Nat.succ_lt_succ hk⟩)) := hq'
        rw [← this]
        simpa [solveLoopSq, step] using hq
      · intro j hj
        have hq2 : q.2 = errOf (t.get ⟨k, hk⟩) := by rw [hq']
        match j, hj with
        | 0, _ =>
          show errOf (t.get ⟨k, hk⟩) ≤ errOf s
          exact (hq2 ▸ hlt).le
        | j' + 1, hj =>
          show errOf (t.get ⟨k, hk⟩) ≤
            errOf (t.get ⟨j', Nat.lt_of_succ_lt_succ hj⟩)
          exact hq2 ▸ hmin _ (t.get_mem j' (Nat.lt_of_succ_lt_succ hj))
      · intro j hj
        have hq2 : q.2 = errOf (t.get ⟨k, hk⟩) := by rw [hq']
        match j, hj with
        | 0, _ =>
          show errOf (t.get ⟨k, hk⟩) < errOf s
          exact hq2 ▸ hlt
        | j' + 1, hj =>
          show errOf (t.get ⟨k, hk⟩) <
            errOf (t.get ⟨j', Nat.lt_of_succ_lt_succ (hj.trans (Nat.succ_lt_succ hk))⟩)
          exact hq2 ▸ hearly j' (Nat.lt_of_succ_lt_succ hj)

/-- The source loop compares residual 2-norms; compared states relate to
the squared-residual loop by taking the square root of the error
component.  This is the stepwise correspondence. -/
lemma foldl_stepN_eq (l : List (System ℝ)) :
    ∀ acc : Option ((Fin 3 → ℝ) × ℝ), (∀ p, acc = some p → 0 ≤ p.2) →
      l.foldl stepN (acc.map fun p => (p.1, Real.sqrt p.2)) =
        (l.foldl step acc).map fun p => (p.1, Real.sqrt p.2) := by
  induction l with
  | nil => intro acc _; rfl
  | cons s t ih =>
    intro acc hacc
    have hstep : stepN (acc.map fun p => (p.1, Real.sqrt p.2)) s =
        (step acc s).map fun p => (p.1, Real.sqrt p.2) := by
      cases acc with
      | none => rfl
      | some p =>
        have hiff : errNorm s < Real.sqrt p.2 ↔ errOf s < p.2 :=
          Real.sqrt_lt_sqrt_iff (errOf_nonneg s)
        by_cases h : errOf s < p.2
        · have h' : errNorm s < Real.sqrt p.2 := hiff.mpr h
          show (if errNorm s < Real.sqrt p.2 then some (solOf s, errNorm s)
              else some (p.1, Real.sqrt p.2)) =
            Option.map (fun q => (q.1, Real.sqrt q.2))
              (if errOf s < p.2 then some (solOf s, errOf s) else some p)
          rw [if_pos h, if_pos h']
          rfl
        · have h' : ¬ errNorm s < Real.sqrt p.2 := fun hc => h (hiff.mp hc)
          show (if errNorm s < Real.sqrt p.2 then some (solOf s, errNorm s)
              else some (p.1, Real.sqrt p.2)) =
            Option.map (fun q => (q.1, Real.sqrt q.2))
              (if errOf s < p.2 then some (solOf s, errOf s) else some p)
          rw [if_neg h, if_neg h']
          rfl
    have hnext : ∀ p, step acc s = some p → 0 ≤ p.2 := by
      intro q hq
      cases acc with
      | none =>
        simp only [step] at hq
        cases hq
        exact errOf_nonneg s
      | some p' =>
        by_cases h : errOf s < p'.2
        · simp only [step, if_pos h] at hq
          cases hq
          exact errOf_nonneg s
        · simp only [step, if_neg h] at hq
          cases hq
          exact hacc _ rfl
    rw [List.foldl_cons, List.foldl_cons, hstep, ih _ hnext]

/-- The source loop equals the squared-residual loop with the error
component replaced by its square root. -/
lemma solveLoop_eq (l : List (System ℝ)) :
    solveLoop l = (solveLoopSq l).map fun p => (p.1, Real.sqrt p.2) := by
  have h := foldl_stepN_eq l none (by intro p hp; cases hp)
  simpa [solveLoop, solveLoopSq] using h

/-- The nested loops try exactly `4 · (2 · 1 · 2 · 1) = 16` candidate
systems. -/
lemma systems_length (K : Matrix (Fin 3) (Fin 4) α) (rc : Fin 8 → Fin 3 → α)
    (x1 y1 x2 y2 : α) : (systems K rc x1 y1 x2 y2).length = 16 := rfl

lemma systems_of_length (bbox2D : Fin 4 → ℝ) (corners : Fin 8 → Fin 3 → ℝ)
    (theta_l : ℝ) (P2 : Matrix (Fin 3) (Fin 4) ℝ)
    (R0_rect : Matrix (Fin 3) (Fin 3) ℝ) :
    (systems_of bbox2D corners theta_l P2 R0_rect).length = 16 := rfl

/-- Master specification of `solve_3d_bbox_single`: the returned
translation is the pseudoinverse solution of the earliest enumerated
candidate system achieving the minimal residual norm, and the final
`error` is that system's residual norm. -/
lemma solve_3d_bbox_single_spec (bbox2D : Fin 4 → ℝ)
    (corners : Fin 8 → Fin 3 → ℝ) (theta_l : ℝ)
    (P2 : Matrix (Fin 3) (Fin 4) ℝ) (R0_rect : Matrix (Fin 3) (Fin 3) ℝ) :
    ∃ k, ∃ hk : k < (systems_of bbox2D corners theta_l P2 R0_rect).length,
      solveLoop (systems_of bbox2D corners theta_l P2 R0_rect) =
        some (solOf ((systems_of bbox2D corners theta_l P2 R0_rect).get ⟨k, hk⟩),
          errNorm ((systems_of bbox2D corners theta_l P2 R0_rect).get ⟨k, hk⟩)) ∧
      solve_3d_bbox_single bbox2D corners theta_l P2 R0_rect =
        solOf ((systems_of bbox2D corners theta_l P2 R0_rect).get ⟨k, hk⟩) ∧
      solve_error bbox2D corners theta_l P2 R0_rect =
        errNorm ((systems_of bbox2D corners theta_l P2 R0_rect).get ⟨k, hk⟩) ∧
      (∀ j, ∀ hj : j < (systems_of bbox2D corners theta_l P2 R0_rect).length,
        errNorm ((systems_of bbox2D corners theta_l P2 R0_rect).get ⟨k, hk⟩) ≤
          errNorm ((systems_of bbox2D corners theta_l P2 R0_rect).get ⟨j, hj⟩)) ∧
      (∀ j, ∀ hj : j < k,
        errNorm ((systems_of bbox2D corners theta_l P2 R0_rect).get ⟨k, hk⟩) <
          errNorm ((systems_of bbox2D corners theta_l P2 R0_rect).get
            ⟨j, hj.trans hk⟩)) := by
  have hne : systems_of bbox2D corners theta_l P2 R0_rect ≠ [] := by
    intro hnil
    have := systems_of_length bbox2D corners theta_l P2 R0_rect
    rw [hnil] at this
    exact absurd this (by decide)
  obtain ⟨k, hk, heq, hmin, hearly⟩ :=
    solveLoopSq_spec (systems_of bbox2D corners theta_l P2 R0_rect) hne
  refine ⟨k, hk, ?_, ?_, ?_, ?_, ?_⟩
  · rw [solveLoop_eq, heq]
    rfl
  · unfold solve_3d_bbox_single
    rw [solveLoop_eq, heq]
    rfl
  · unfold solve_error
    rw [solveLoop_eq, heq]
    rfl
  · intro j hj
    exact Real.sqrt_le_sqrt (hmin j hj)
  · intro j hj
    exact Real.sqrt_lt_sqrt (errOf_nonneg _) (hearly j hj)

/-! ## Spec-side comparison definitions

The following definitions follow the wording of the specification (not the
source); the claim theorems compare the embedded code against them. -/

/-- The standard yaw rotation matrix about the vertical (y) axis, as the
spec words it (step 4 of §4.2, claim C7): `Ry(θ) · v` rotates `v` by yaw
`θ`. -/
noncomputable def spec_Ry (θ : ℝ) : Matrix (Fin 3) (Fin 3) ℝ :=
  Matrix.of ![![Real.cos θ, 0, Real.sin θ],
              ![0, 1, 0],
              ![-Real.sin θ, 0, Real.cos θ]]

/-- The x sign column of the fixed corner table of §4.1:
`+,−,−,+,+,−,−,+` across indices 0–7. -/
def spec_sign_x : Fin 8 → α := ![1, -1, -1, 1, 1, -1, -1, 1]

/-- The z sign column of the fixed corner table of §4.1:
`+,+,−,−,+,+,−,−` across indices 0–7. -/
def spec_sign_z : Fin 8 → α := ![1, 1, -1, -1, 1, 1, -1, -1]

/-- The bottom-face corner indices `{4, 5, 6, 7}` in order. -/
def bottom_idx : Fin 4 → Fin 8 := ![4, 5, 6, 7]

/-- The top-face corner indices `{0, 1, 2, 3}` in order. -/
def top_idx : Fin 4 → Fin 8 := ![0, 1, 2, 3]

/-- Evaluation of an 8-vector literal at index 5 (the simp set of
`Matrix.cons_val` lemmas stops at index 4). -/
lemma vec8_five {γ : Type} (a b c d e f g h₀ : γ) :
    ![a, b, c, d, e, f, g, h₀] 5 = f := rfl

/-- Evaluation of an 8-vector literal at index 6. -/
lemma vec8_six {γ : Type} (a b c d e f g h₀ : γ) :
    ![a, b, c, d, e, f, g, h₀] 6 = g := rfl

/-- Evaluation of an 8-vector literal at index 7. -/
lemma vec8_seven {γ : Type} (a b c d e f g h₀ : γ) :
    ![a, b, c, d, e, f, g, h₀] 7 = h₀ := rfl

/-! ## Claim theorems -/

/-- Claim C3: for every input, the pipeline computes the ray angle as
`theta_ray = atan2(P2[0,0], (x1+x2)/2 − P2[0,2])` (i.e. `atan2(fx,
box_center_x − cx)`) and the global yaw as `ry = π − theta_ray −
theta_l`. -/
theorem C3_ray_angle_and_yaw (P2 : Matrix (Fin 3) (Fin 4) ℝ)
    (x1 x2 theta_l : ℝ) :
    theta_ray P2 x1 x2 = atan2 (P2 0 0) ((x1 + x2) / 2 - P2 0 2) ∧
    ry P2 x1 x2 theta_l =
      Real.pi - atan2 (P2 0 0) ((x1 + x2) / 2 - P2 0 2) - theta_l := by
  have h : (x1 + x2) * (0.5 : ℝ) = (x1 + x2) / 2 := by ring
  constructor
  · unfold theta_ray
    rw [h]
  · unfold ry theta_ray
    rw [h]

/-- Claim C4: the correspondence search enumerates exactly 4 hypotheses;
within each hypothesis the candidate sets have exactly 2 options for edge
`x1`, 1 for `x2`, 2 for `y1` and 1 for `y2`; and exactly 16 candidate
systems are enumerated per call, with no other iteration (the solver is
the fold over exactly this list). -/
theorem C4_enumeration_counts :
    crp.length = 4 ∧
    (∀ i : Fin crp.length,
      (crp.get i).x1.length = 2 ∧ (crp.get i).x2.length = 1 ∧
      (crp.get i).y1.length = 2 ∧ (crp.get i).y2.length = 1) ∧
    ∀ (bbox2D : Fin 4 → ℝ) (corners : Fin 8 → Fin 3 → ℝ) (theta_l : ℝ)
      (P2 : Matrix (Fin 3) (Fin 4) ℝ) (R0_rect : Matrix (Fin 3) (Fin 3) ℝ),
      (systems_of bbox2D corners theta_l P2 R0_rect).length = 16 := by
  refine ⟨rfl, ?_, fun _ _ _ _ _ => rfl⟩
  decide

/-- Claim C7: before constraint assembly every canonical corner is rotated
by the yaw rotation about the vertical axis: the code's right
multiplication of the corner row by `Ry_T` equals left multiplication by
the standard yaw matrix `Ry(ry)`. -/
theorem C7_rotation_is_standard_yaw (corners : Fin 8 → Fin 3 → ℝ)
    (P2 : Matrix (Fin 3) (Fin 4) ℝ) (x1 x2 theta_l : ℝ) (i : Fin 8) :
    rotate_corners corners (ry P2 x1 x2 theta_l) i =
      (spec_Ry (ry P2 x1 x2 theta_l)).mulVec (corners i) := by
  funext j
  fin_cases j <;>
    simp [rotate_corners, Ry_T, spec_Ry, Matrix.vecMul, Matrix.mulVec,
      dotProduct, Fin.sum_univ_three] <;>
    ring

/-- Claim C8: the batched corner generator returns an `N×8×3` family whose
`i`-th slice equals the generator applied to the singleton batch holding
only the `i`-th dimension triple. -/
theorem C8_batch_equals_stacked_singles {N : ℕ} (dims : Fin N → Fin 3 → α)
    (i : Fin N) :
    dimensions_to_corners dims i =
      dimensions_to_corners (fun _ : Fin 1 => dims i) 0 := rfl

/-- Claim C9: `solve_3d_bbox_single` is deterministic — identical inputs
produce identical translations; the computation uses no randomness. -/
theorem C9_deterministic (bbox2D bbox2D' : Fin 4 → ℝ)
    (corners corners' : Fin 8 → Fin 3 → ℝ) (theta_l theta_l' : ℝ)
    (P2 P2' : Matrix (Fin 3) (Fin 4) ℝ)
    (R0_rect R0_rect' : Matrix (Fin 3) (Fin 3) ℝ)
    (hb : bbox2D = bbox2D') (hc : corners = corners') (ht : theta_l = theta_l')
    (hP : P2 = P2') (hR : R0_rect = R0_rect') :
    solve_3d_bbox_single bbox2D corners theta_l P2 R0_rect =
      solve_3d_bbox_single bbox2D' corners' theta_l' P2' R0_rect' := by
  rw [hb, hc, ht, hP, hR]

/-- Witness for C9 at a concrete input (the all-zero input). -/
theorem C9_deterministic_witness :
    solve_3d_bbox_single (fun _ => 0) (fun _ _ => 0) 0 0 0 =
      solve_3d_bbox_single (fun _ => 0) (fun _ _ => 0) 0 0 0 :=
  C9_deterministic (fun _ => 0) (fun _ => 0) (fun _ _ => 0) (fun _ _ => 0)
    0 0 0 0 0 0 rfl rfl rfl rfl rfl

/-- Claim C1: for every input, the translation returned by
`solve_3d_bbox_single` is the pseudoinverse solution of one of the
enumerated candidate systems, and its least-squares residual
`‖A t − b‖₂` is at most the residual of every candidate system's own
solution (global minimum over all systems tried). -/
theorem C1_residual_is_global_min (bbox2D : Fin 4 → ℝ)
    (corners : Fin 8 → Fin 3 → ℝ) (theta_l : ℝ)
    (P2 : Matrix (Fin 3) (Fin 4) ℝ) (R0_rect : Matrix (Fin 3) (Fin 3) ℝ) :
    ∃ s ∈ systems_of bbox2D corners theta_l P2 R0_rect,
      solve_3d_bbox_single bbox2D corners theta_l P2 R0_rect = solOf s ∧
      ∀ j : Fin (systems_of bbox2D corners theta_l P2 R0_rect).length,
        residual s.1 s.2 (solve_3d_bbox_single bbox2D corners theta_l P2 R0_rect) ≤
          residual ((systems_of bbox2D corners theta_l P2 R0_rect).get j).1
            ((systems_of bbox2D corners theta_l P2 R0_rect).get j).2
            (solOf ((systems_of bbox2D corners theta_l P2 R0_rect).get j)) := by
  obtain ⟨k, hk, _, hsol, _, hmin, _⟩ :=
    solve_3d_bbox_single_spec bbox2D corners theta_l P2 R0_rect
  refine ⟨_, List.get_mem _ k hk, hsol, ?_⟩
  intro j
  rw [hsol]
  exact hmin j.1 j.2

/-- Claim C6: `solve_3d_bbox_single` never fails: for every input the
selection loop ends in an assigned state (`some`, mirroring that the
first iteration always assigns `trans`), the returned vector is that
state's translation, it is the solution of one of the enumerated systems
(a best-effort result even if its residual is large or a system matrix is
degenerate), and its residual is minimal — there is no "no solution"
path. -/
theorem C6_total_best_effort (bbox2D : Fin 4 → ℝ)
    (corners : Fin 8 → Fin 3 → ℝ) (theta_l : ℝ)
    (P2 : Matrix (Fin 3) (Fin 4) ℝ) (R0_rect : Matrix (Fin 3) (Fin 3) ℝ) :
    ∃ p, solveLoop (systems_of bbox2D corners theta_l P2 R0_rect) = some p ∧
      solve_3d_bbox_single bbox2D corners theta_l P2 R0_rect = p.1 ∧
      (∃ s ∈ systems_of bbox2D corners theta_l P2 R0_rect,
        p = (solOf s, errNorm s)) ∧
      ∀ j : Fin (systems_of bbox2D corners theta_l P2 R0_rect).length,
        p.2 ≤ errNorm ((systems_of bbox2D corners theta_l P2 R0_rect).get j) := by
  obtain ⟨k, hk, hloop, hsol, _, hmin, _⟩ :=
    solve_3d_bbox_single_spec bbox2D corners theta_l P2 R0_rect
  refine ⟨_, hloop, hsol, ⟨_, List.get_mem _ k hk, rfl⟩, ?_⟩
  intro j
  exact hmin j.1 j.2

/-- Claim C10: the returned translation is exactly `pinv(A_k) · b_k` for
one of the 16 enumerated systems, namely the earliest system in the fixed
enumeration order achieving the minimal residual: the strict `<`
comparison resolves ties in favour of the earlier-enumerated system, so
every strictly earlier system has a strictly larger residual. -/
theorem C10_earliest_minimal_system (bbox2D : Fin 4 → ℝ)
    (corners : Fin 8 → Fin 3 → ℝ) (theta_l : ℝ)
    (P2 : Matrix (Fin 3) (Fin 4) ℝ) (R0_rect : Matrix (Fin 3) (Fin 3) ℝ) :
    ∃ k, ∃ hk : k < (systems_of bbox2D corners theta_l P2 R0_rect).length,
      solve_3d_bbox_single bbox2D corners theta_l P2 R0_rect =
        pinvSolve ((systems_of bbox2D corners theta_l P2 R0_rect).get ⟨k, hk⟩).1
          ((systems_of bbox2D corners theta_l P2 R0_rect).get ⟨k, hk⟩).2 ∧
      (∀ j, ∀ hj : j < (systems_of bbox2D corners theta_l P2 R0_rect).length,
        errNorm ((systems_of bbox2D corners theta_l P2 R0_rect).get ⟨k, hk⟩) ≤
          errNorm ((systems_of bbox2D corners theta_l P2 R0_rect).get ⟨j, hj⟩)) ∧
      ∀ j, ∀ hj : j < k,
        errNorm ((systems_of bbox2D corners theta_l P2 R0_rect).get ⟨k, hk⟩) <
          errNorm ((systems_of bbox2D corners theta_l P2 R0_rect).get
            ⟨j, hj.trans hk⟩) := by
  obtain ⟨k, hk, _, hsol, _, hmin, hearly⟩ :=
    solve_3d_bbox_single_spec bbox2D corners theta_l P2 R0_rect
  exact ⟨k, hk, hsol, hmin, hearly⟩

/-- Claim C2: for every bottom-face corner index `i ∈ {4,5,6,7}` the
solver derives constraints for edge kinds `x1`, `x2`, `y1`, and for every
top-face index `i ∈ {0,1,2,3}` a constraint for edge kind `y2`; each
constraint projects the rotated corner through `K = P2 · R0_rect_hom`,
with `A = (K·X)[row 0] − edge·(K·X)[row 2]` restricted to the first three
columns and `b = edge·(K·X)[2,3] − (K·X)[0,3]` for x-edges, and the
analogous row-1 form for y-edges. -/
theorem C2_constraint_formulas (P2 : Matrix (Fin 3) (Fin 4) ℝ)
    (R0_rect : Matrix (Fin 3) (Fin 3) ℝ) (rc : Fin 8 → Fin 3 → ℝ)
    (x1 y1 x2 y2 : ℝ) (i : Fin 4) :
    constraintX (Kmat P2 R0_rect) (rc (bottom_idx i)) x1 =
      ⟨fun r => (P2 * R0_hom R0_rect * Xmat (rc (bottom_idx i))) 0 r.castSucc -
          x1 * (P2 * R0_hom R0_rect * Xmat (rc (bottom_idx i))) 2 r.castSucc,
        x1 * (P2 * R0_hom R0_rect * Xmat (rc (bottom_idx i))) 2 3 -
          (P2 * R0_hom R0_rect * Xmat (rc (bottom_idx i))) 0 3⟩ ∧
    constraintX (Kmat P2 R0_rect) (rc (bottom_idx i)) x2 =
      ⟨fun r => (P2 * R0_hom R0_rect * Xmat (rc (bottom_idx i))) 0 r.castSucc -
          x2 * (P2 * R0_hom R0_rect * Xmat (rc (bottom_idx i))) 2 r.castSucc,
        x2 * (P2 * R0_hom R0_rect * Xmat (rc (bottom_idx i))) 2 3 -
          (P2 * R0_hom R0_rect * Xmat (rc (bottom_idx i))) 0 3⟩ ∧
    constraintY (Kmat P2 R0_rect) (rc (bottom_idx i)) y1 =
      ⟨fun r => (P2 * R0_hom R0_rect * Xmat (rc (bottom_idx i))) 1 r.castSucc -
          y1 * (P2 * R0_hom R0_rect * Xmat (rc (bottom_idx i))) 2 r.castSucc,
        y1 * (P2 * R0_hom R0_rect * Xmat (rc (bottom_idx i))) 2 3 -
          (P2 * R0_hom R0_rect * Xmat (rc (bottom_idx i))) 1 3⟩ ∧
    constraintY (Kmat P2 R0_rect) (rc (top_idx i)) y2 =
      ⟨fun r => (P2 * R0_hom R0_rect * Xmat (rc (top_idx i))) 1 r.castSucc -
          y2 * (P2 * R0_hom R0_rect * Xmat (rc (top_idx i))) 2 r.castSucc,
        y2 * (P2 * R0_hom R0_rect * Xmat (rc (top_idx i))) 2 3 -
          (P2 * R0_hom R0_rect * Xmat (rc (top_idx i))) 1 3⟩ ∧
    (crp.all fun cr =>
      (cr.x1.all fun j => decide (4 ≤ (j : ℕ))) &&
      (cr.x2.all fun j => decide (4 ≤ (j : ℕ))) &&
      (cr.y1.all fun j => decide (4 ≤ (j : ℕ))) &&
      (cr.y2.all fun j => decide ((j : ℕ) < 4))) = true :=
  ⟨rfl, rfl, rfl, rfl, by decide⟩

/-- Claim C5: for positive dimensions `(h, w, l)`, the corner generator
returns 8 corners where indices 0–3 have `y = 0` and indices 4–7 have
`y = −h`, every corner has `|x| = l/2` and `|z| = w/2`, and the x and z
signs follow the fixed table of §4.1. -/
theorem C5_corner_sign_table (h w l : α) (hh : 0 < h) (hw : 0 < w)
    (hl : 0 < l) :
    ∀ i : Fin 8,
      dimensions_to_corners (fun _ : Fin 1 => ![h, w, l]) 0 i 1 =
        (if (i : ℕ) < 4 then 0 else -h) ∧
      dimensions_to_corners (fun _ : Fin 1 => ![h, w, l]) 0 i 0 =
        spec_sign_x i * (l / 2) ∧
      dimensions_to_corners (fun _ : Fin 1 => ![h, w, l]) 0 i 2 =
        spec_sign_z i * (w / 2) ∧
      |dimensions_to_corners (fun _ : Fin 1 => ![h, w, l]) 0 i 0| = l / 2 ∧
      |dimensions_to_corners (fun _ : Fin 1 => ![h, w, l]) 0 i 2| = w / 2 := by
  have habsl : |l / 2| = l / 2 := abs_of_nonneg (by positivity)
  have habsw : |w / 2| = w / 2 := abs_of_nonneg (by positivity)
  intro i
  fin_cases i <;>
    refine ⟨?_, ?_, ?_, ?_, ?_⟩ <;>
    simp [dimensions_to_corners, corners_stacked, corner_x, corner_y, corner_z,
      spec_sign_x, spec_sign_z, vec8_five, vec8_six, vec8_seven,
      habsl, habsw, abs_neg, neg_div]

/-- Witness for C5: the corner table at the concrete positive dimensions
`(h, w, l) = (2, 3, 5)` over `ℚ`. -/
theorem C5_corner_sign_table_witness :
    (0:ℚ) < 2 ∧ (0:ℚ) < 3 ∧ (0:ℚ) < 5 ∧
    ∀ i : Fin 8,
      dimensions_to_corners (fun _ : Fin 1 => ![(2:ℚ), 3, 5]) 0 i 1 =
        (if (i : ℕ) < 4 then 0 else -2) ∧
      dimensions_to_corners (fun _ : Fin 1 => ![(2:ℚ), 3, 5]) 0 i 0 =
        spec_sign_x i * (5 / 2) ∧
      dimensions_to_corners (fun _ : Fin 1 => ![(2:ℚ), 3, 5]) 0 i 2 =
        spec_sign_z i * (3 / 2) ∧
      |dimensions_to_corners (fun _ : Fin 1 => ![(2:ℚ), 3, 5]) 0 i 0| = 5 / 2 ∧
      |dimensions_to_corners (fun _ : Fin 1 => ![(2:ℚ), 3, 5]) 0 i 2| = 3 / 2 :=
  ⟨by decide, by decide, by decide,
    C5_corner_sign_table (2:ℚ) 3 5 (by decide) (by decide) (by decide)⟩

end BBox3D
